import Mathlib

/-!
Axis flip of a row-major tensor (`tensor_flip.cpp`).

A shallow embedding of the host code of `tensor_flip.cpp`:

* `uint32_t` values are natural numbers, every `uint32_t` operation is reduced
  modulo `2^32` and every `size_t` operation modulo `2^64`;
* a `std::vector` / `ttnn::Shape` is a `List Nat`;
* an access past the end of a vector and a division by zero are undefined
  behaviour in the source; the embedding reports them as a `Fault`;
* loops are structural recursions on the number of iterations still to run, so
  a loop of `n` iterations is run with counter `n` and always returns;
* the loop counters `int i` of `get_strides` / `compute_strides` are taken to
  hold `rank - 2` exactly (the rank of a shape fits in an `int`).
-/

namespace TensorFlip

/-- Undefined behaviour of the source that the embedding makes observable. -/
inductive Fault where
  | divisionByZero
  | outOfBounds
  deriving DecidableEq, Repr

/-- Equality of two results of the embedding is decidable. -/
instance instDecidableEqExcept {ε α : Type} [DecidableEq ε] [DecidableEq α] :
    DecidableEq (Except ε α)
  | .ok a, .ok b => if h : a = b then isTrue (by rw [h]) else isFalse (by simpa using h)
  | .error a, .error b => if h : a = b then isTrue (by rw [h]) else isFalse (by simpa using h)
  | .ok _, .error _ => isFalse (by simp)
  | .error _, .ok _ => isFalse (by simp)

/-- Number of values of a `uint32_t`. -/
def u32 : Nat := 4294967296

/-- Number of values of a `size_t`. -/
def u64 : Nat := 18446744073709551616

/-- Product of the dimensions of a shape (an unbounded natural number). -/
def volume (shape : List Nat) : Nat := shape.prod

/-! ## `get_tiled_shape` (lines 48-66) -/

/-- Loop of `get_tiled_shape`: `k` iterations are left, iteration `i = rank - k`
pushes one dimension onto `tiled_shape`.  The comparison `i == rank - 2` is made
in `size_t`, so for rank 1 it is never true (`rank - 2` wraps around). -/
def get_tiled_shape_loop (shape : List Nat) (tile_h tile_w : Nat) :
    Nat → List Nat → Except Fault (List Nat)
  | 0, tiled_shape => .ok tiled_shape
  | k + 1, tiled_shape =>
    let rank := shape.length
    let i := rank - (k + 1)
    let si := shape.getD i 0
    if i = rank - 1 then
      if tile_w = 0 then .error .divisionByZero
      else get_tiled_shape_loop shape tile_h tile_w k (tiled_shape ++ [si / tile_w])
    else if 2 ≤ rank ∧ i = rank - 2 then
      if tile_h = 0 then .error .divisionByZero
      else get_tiled_shape_loop shape tile_h tile_w k (tiled_shape ++ [si / tile_h])
    else get_tiled_shape_loop shape tile_h tile_w k (tiled_shape ++ [si])

/-- The function `get_tiled_shape`, with the padded shape of the tensor and the
tile shape `(tile_h, tile_w) = (tile_shape[0], tile_shape[1])` as arguments. -/
def get_tiled_shape (shape : List Nat) (tile_h tile_w : Nat) : Except Fault (List Nat) :=
  get_tiled_shape_loop shape tile_h tile_w shape.length []

/-! ## `get_strides` and `compute_strides` (lines 68-85) -/

/-- Loop of `get_strides`: the counter `k + 1` runs the iteration `i = k`
(`strides[i] = strides[i + 1] * shape[i + 1]`), then the iterations below. -/
def get_strides_loop (shape : List Nat) : Nat → List Nat → List Nat
  | 0, strides => strides
  | i + 1, strides =>
    get_strides_loop shape i
      (strides.set i ((strides.getD (i + 1) 0 * shape.getD (i + 1) 0) % u32))

/-- The function `get_strides`.  For rank 0 the store `strides[rank - 1] = 1`
is past the end of the vector. -/
def get_strides (shape : List Nat) : Except Fault (List Nat) :=
  let rank := shape.length
  if rank = 0 then .error .outOfBounds
  else .ok (get_strides_loop shape (rank - 1) ((List.replicate rank 0).set (rank - 1) 1))

/-- Loop of `compute_strides`: the counter `k + 1` runs the iteration `i = k`
(`strides[i] = strides[i + 1] * shape[i + 1]`), then the iterations below. -/
def compute_strides_loop (shape : List Nat) : Nat → List Nat → List Nat
  | 0, strides => strides
  | i + 1, strides =>
    compute_strides_loop shape i
      (strides.set i ((strides.getD (i + 1) 0 * shape.getD (i + 1) 0) % u32))

/-- The function `compute_strides`.  For `n = 0` the store `strides[n - 1] = 1`
is past the end of the vector. -/
def compute_strides (shape : List Nat) : Except Fault (List Nat) :=
  let n := shape.length
  if n = 0 then .error .outOfBounds
  else .ok (compute_strides_loop shape (n - 1) ((List.replicate n 0).set (n - 1) 1))

/-! ## `tensor_flip_cpu` (lines 127-151) -/

/-- Inner loop of `tensor_flip_cpu` (lines 140-148): `k` iterations are left,
iteration `dim = ndim - k`.  `linear` and `dst_linear` are `size_t`, `coord` is
a `uint32_t`. -/
def flip_dims_loop (tensor_shape strides dims_to_flip : List Nat) (ndim : Nat) :
    Nat → Nat → Nat → Except Fault Nat
  | 0, _, dst_linear => .ok dst_linear
  | k + 1, linear, dst_linear =>
    let dim := ndim - (k + 1)
    let stride := strides.getD dim 0
    if stride = 0 then .error .divisionByZero
    else
      let coord := (linear / stride) % u32
      let linear := linear % stride
      let coord :=
        if dim ∈ dims_to_flip then (tensor_shape.getD dim 0 + u32 - 1 + u32 - coord) % u32
        else coord
      flip_dims_loop tensor_shape strides dims_to_flip ndim k linear
        ((dst_linear + (coord * stride) % u32) % u64)

/-- Value of `dst_linear` at line 149 for the source offset `idx`: the inner
loop started with `linear = idx`, `dst_linear = 0`. -/
def dst_linear_of (tensor_shape strides dims_to_flip : List Nat) (idx : Nat) :
    Except Fault Nat :=
  flip_dims_loop tensor_shape strides dims_to_flip tensor_shape.length
    tensor_shape.length idx 0

/-- The offset map of `tensor_flip_cpu`: `idx ↦ dst_linear`, with the strides
that line 135 computes from the shape. -/
def flip_offset (tensor_shape dims_to_flip : List Nat) (idx : Nat) : Except Fault Nat :=
  match compute_strides tensor_shape with
  | .error e => .error e
  | .ok strides => dst_linear_of tensor_shape strides dims_to_flip idx

/-- Outer loop of `tensor_flip_cpu` (lines 138-150): `k` iterations are left,
iteration `idx = numel - k` stores `src[idx]` at `dst[dst_linear]`. -/
def tensor_flip_loop (src tensor_shape strides dims_to_flip : List Nat) (numel : Nat) :
    Nat → List Nat → Except Fault (List Nat)
  | 0, dst => .ok dst
  | k + 1, dst =>
    let idx := numel - (k + 1)
    match dst_linear_of tensor_shape strides dims_to_flip idx with
    | .error e => .error e
    | .ok dst_linear =>
      if dst_linear < dst.length then
        tensor_flip_loop src tensor_shape strides dims_to_flip numel k
          (dst.set dst_linear (src.getD idx 0))
      else .error .outOfBounds

/-- The call `dst.resize(numel)` of a `std::vector<uint32_t>`. -/
def resize (dst : List Nat) (numel : Nat) : List Nat :=
  dst.take numel ++ List.replicate (numel - dst.length) 0

/-- The function `tensor_flip_cpu`; the result is the final content of `dst`. -/
def tensor_flip_cpu (src dst tensor_shape dims_to_flip : List Nat) :
    Except Fault (List Nat) :=
  let numel := src.length
  let dst := resize dst numel
  match compute_strides tensor_shape with
  | .error e => .error e
  | .ok strides => tensor_flip_loop src tensor_shape strides dims_to_flip numel numel dst

/-! ## `main`: destination tile of every source tile (lines 250-279) -/

/-- The index `dim = rank - i` of line 257. -/
def tile_dim (rank i : Nat) : Nat := rank - i

/-- Coordinate loop of `main` (lines 256-269): `k` iterations are left, iteration
`i = rank - k`.  `remaining` is a `size_t`, the coordinates are `uint32_t`.
`src_multi_dim[dim]`, `dst_multi_dim[dim]` are stores into `std::vector`s and
`input_tile_shape[i]`, `input_tile_shape[dim]` are reads of a `ttnn::Shape`. -/
def tile_coord_loop (input_tile_shape dims_to_flip : List Nat) (rank : Nat) :
    Nat → Nat → List Nat → List Nat → Except Fault (List Nat × List Nat)
  | 0, _, src_multi_dim, dst_multi_dim => .ok (src_multi_dim, dst_multi_dim)
  | k + 1, remaining, src_multi_dim, dst_multi_dim =>
    let i := rank - (k + 1)
    let dim := tile_dim rank i
    if input_tile_shape.length ≤ i then .error .outOfBounds
    else if input_tile_shape.getD i 0 = 0 then .error .divisionByZero
    else if src_multi_dim.length ≤ dim then .error .outOfBounds
    else
      let coord := (remaining % input_tile_shape.getD i 0) % u32
      let src_multi_dim := src_multi_dim.set dim coord
      if dim ∈ dims_to_flip then
        if input_tile_shape.length ≤ dim ∨ dst_multi_dim.length ≤ dim then .error .outOfBounds
        else
          tile_coord_loop input_tile_shape dims_to_flip rank k
            (remaining / input_tile_shape.getD i 0) src_multi_dim
            (dst_multi_dim.set dim ((input_tile_shape.getD dim 0 + u32 - coord + u32 - 1) % u32))
      else
        if dst_multi_dim.length ≤ dim then .error .outOfBounds
        else
          tile_coord_loop input_tile_shape dims_to_flip rank k
            (remaining / input_tile_shape.getD i 0) src_multi_dim
            (dst_multi_dim.set dim coord)

/-- Recomposition loop of `main` (lines 272-275): `k` iterations are left,
iteration `j = rank - k`; `dst_tile_id` is a `uint32_t`. -/
def tile_id_loop (dst_multi_dim input_tile_strides : List Nat) (rank : Nat) :
    Nat → Nat → Except Fault Nat
  | 0, dst_tile_id => .ok dst_tile_id
  | k + 1, dst_tile_id =>
    let j := rank - (k + 1)
    if dst_multi_dim.length ≤ j ∨ input_tile_strides.length ≤ j then .error .outOfBounds
    else
      tile_id_loop dst_multi_dim input_tile_strides rank k
        ((dst_tile_id + (dst_multi_dim.getD j 0 * input_tile_strides.getD j 0) % u32) % u32)

/-- Body of the per-tile loop of `main` (lines 251-275): the `dst_tile_id` that is
printed for `src_tile_id`. -/
def tile_dst_id (input_tile_shape input_tile_strides dims_to_flip : List Nat) (rank : Nat)
    (src_tile_id : Nat) : Except Fault Nat :=
  match tile_coord_loop input_tile_shape dims_to_flip rank rank src_tile_id
      (List.replicate rank 0) (List.replicate rank 0) with
  | .error e => .error e
  | .ok (_, dst_multi_dim) => tile_id_loop dst_multi_dim input_tile_strides rank rank 0

/-! ## `main`: tile ranges of the cores (lines 291-309) -/

/-- A core of the grid. -/
abbrev CoreCoord := Nat × Nat

/-- The runtime arguments that one iteration of the loop sets for a core:
`reader_rt_args[1]`, `reader_rt_args[2]`, `writer_rt_args[1]`, `writer_rt_args[2]`. -/
structure CoreArgs where
  core : CoreCoord
  reader_start : Nat
  reader_end : Nat
  writer_start : Nat
  writer_end : Nat
  deriving DecidableEq, Repr

/-- State of the range loop: the two `uint32_t` counters and the calls of
`SetRuntimeArgs` made so far, oldest first. -/
structure RangeState where
  start_tile : Nat
  end_tile : Nat
  calls : List CoreArgs
  deriving DecidableEq, Repr

/-- Body of the innermost loop (lines 296-306) for one core. -/
def assign_core (tiles_per_core : Nat) (st : RangeState) (core : CoreCoord) : RangeState :=
  let end_tile := (st.end_tile + tiles_per_core) % u32
  let calls := st.calls ++ [⟨core, st.start_tile, end_tile, st.start_tile, end_tile⟩]
  let start_tile := (st.start_tile + tiles_per_core) % u32
  ⟨start_tile, end_tile, calls⟩

/-- The loop nest of lines 291-309.  A work group is a core range set (a list of
ranges, each a list of cores) with its number of tiles per core. -/
def assign_ranges (work_groups : List (List (List CoreCoord) × Nat)) : RangeState :=
  work_groups.foldl
    (fun st group =>
      group.1.foldl (fun st range => range.foldl (assign_core group.2) st) st)
    ⟨0, 0, []⟩

/-- The half-open range `[reader_start, reader_end)` that a call gives its core. -/
def CoreArgs.owns (a : CoreArgs) (t : Nat) : Prop := a.reader_start ≤ t ∧ t < a.reader_end

/-! ## Definitions used to state and prove the properties -/

/-- The flip of an offset in exact arithmetic: split `idx` at the stride of the
leading axis (axis number `a`), flip the quotient when `a` is listed, recurse on
the remainder with the following axes. -/
def flipped_offset (dims_to_flip : List Nat) : Nat → List Nat → Nat → Nat
  | _, [], _ => 0
  | a, d :: rest, idx =>
    (if a ∈ dims_to_flip then d - 1 - idx / rest.prod else idx / rest.prod) * rest.prod
      + flipped_offset dims_to_flip (a + 1) rest (idx % rest.prod)

/-- Row-major strides in exact arithmetic. -/
def suffix_products : List Nat → List Nat
  | [] => []
  | _ :: rest => rest.prod :: suffix_products rest

/-- The row-major offset `sum (c[d] * stride[d])` of a coordinate tuple. -/
def row_major_offset (strides coords : List Nat) : Nat :=
  (List.zipWith (fun c s => c * s) coords strides).sum

/-- The coordinate tuple with `c[d]` replaced by `shape[d] - 1 - c[d]` on the
listed axes; `a` is the number of the leading axis. -/
def flip_coords_from (dims_to_flip : List Nat) : Nat → List Nat → List Nat → List Nat
  | a, d :: shape, x :: coords =>
    (if a ∈ dims_to_flip then d - 1 - x else x) :: flip_coords_from dims_to_flip (a + 1) shape coords
  | _, _, _ => []

/-- The flipped coordinate tuple `c'` of a tuple `c`. -/
def flip_coords (shape dims_to_flip coords : List Nat) : List Nat :=
  flip_coords_from dims_to_flip 0 shape coords

/-- The dimension that iteration `i` of `get_tiled_shape` pushes. -/
def tiled_dim (shape : List Nat) (tile_h tile_w i : Nat) : Nat :=
  if i = shape.length - 1 then shape.getD i 0 / tile_w
  else if 2 ≤ shape.length ∧ i = shape.length - 2 then shape.getD i 0 / tile_h
  else shape.getD i 0

/-- The calls that the range loop makes for the cores of one group, when it
starts the group at tile `start` and no counter wraps around. -/
def range_calls (tiles_per_core : Nat) : Nat → List CoreCoord → List CoreArgs
  | _, [] => []
  | start, core :: cores =>
    ⟨core, start, start + tiles_per_core, start, start + tiles_per_core⟩ ::
      range_calls tiles_per_core (start + tiles_per_core) cores

/-- The ranges of a list of calls tile `[s, e)`: the first starts at `s`, each
one starts where the one before ends, the last ends at `e`. -/
def Tiling : Nat → Nat → List CoreArgs → Prop
  | s, e, [] => s = e
  | s, e, a :: l => a.reader_start = s ∧ a.reader_start ≤ a.reader_end ∧ Tiling a.reader_end e l

/-! # Theorems -/

/-! ## Row-major strides -/

/-- A product of positive dimensions is positive. -/
theorem prod_pos_of_dims (shape : List Nat) (h : ∀ d ∈ shape, 1 ≤ d) : 0 < shape.prod := by
  induction shape with
  | nil => simp
  | cons d rest ih =>
    have hd : 1 ≤ d := h d (by simp)
    have hr : 0 < rest.prod := ih (fun x hx => h x (by simp [hx]))
    simp only [List.prod_cons]
    exact Nat.mul_pos hd hr

/-- Dropping leading axes of positive dimension does not increase the volume. -/
theorem prod_drop_le (shape : List Nat) (h : ∀ d ∈ shape, 1 ≤ d) (j : Nat) :
    (shape.drop j).prod ≤ shape.prod := by
  induction shape generalizing j with
  | nil => simp
  | cons d rest ih =>
    cases j with
    | zero => simp
    | succ j =>
      have hd : 1 ≤ d := h d (by simp)
      have hr := ih (fun x hx => h x (by simp [hx])) j
      simp only [List.drop_succ_cons, List.prod_cons]
      calc (rest.drop j).prod ≤ rest.prod := hr
        _ = 1 * rest.prod := (Nat.one_mul _).symm
        _ ≤ d * rest.prod := Nat.mul_le_mul_right _ hd

/-- The suffix of a shape from axis `j` splits into the dimension and the rest. -/
theorem prod_drop_split (shape : List Nat) (j : Nat) (hj : j < shape.length) :
    (shape.drop j).prod = shape.getD j 0 * (shape.drop (j + 1)).prod := by
  rw [List.drop_eq_getElem_cons hj, List.prod_cons]
  simp [List.getD_eq_getElem?_getD, List.getElem?_eq_getElem hj]

theorem compute_strides_loop_length (shape : List Nat) (c : Nat) (strides : List Nat) :
    (compute_strides_loop shape c strides).length = strides.length := by
  induction c generalizing strides with
  | zero => rfl
  | succ i ih => simp [compute_strides_loop, ih]

/-- Invariant of the loop of `compute_strides`: the entries from the counter on
already hold the suffix products modulo `2^32`; at the end all of them do. -/
theorem compute_strides_loop_getD (shape : List Nat) (c : Nat) (strides : List Nat)
    (hc : c < shape.length) (hlen : strides.length = shape.length)
    (hinv : ∀ j, c ≤ j → j < shape.length →
      strides.getD j 0 = (shape.drop (j + 1)).prod % u32)
    (j : Nat) (hj : j < shape.length) :
    (compute_strides_loop shape c strides).getD j 0 = (shape.drop (j + 1)).prod % u32 := by
  induction c generalizing strides with
  | zero => exact hinv j (Nat.zero_le _) hj
  | succ i ih =>
    simp only [compute_strides_loop]
    apply ih
    · omega
    · simp [hlen]
    · intro m hm hmn
      by_cases hmi : m = i
      · subst hmi
        have h1 := hinv (m + 1) (le_refl _) hc
        have h2 := prod_drop_split shape (m + 1) hc
        have hm' : m < strides.length := by omega
        simp only [List.getD_eq_getElem?_getD, List.getElem?_set_self hm', Option.getD_some]
        simp only [List.getD_eq_getElem?_getD] at h1 h2
        rw [h1, h2, Nat.mod_mul_mod, Nat.mul_comm]
      · have hne : i ≠ m := fun h => hmi h.symm
        have := hinv m (by omega) hmn
        simp only [List.getD_eq_getElem?_getD] at this ⊢
        rw [List.getElem?_set_ne hne]
        exact this

/-- For rank at least 1 `compute_strides` returns, and entry `j` of the result
is the product of the dimensions after axis `j`, reduced modulo `2^32`. -/
theorem compute_strides_closed (shape : List Nat) (h : 1 ≤ shape.length) :
    ∃ strides, compute_strides shape = .ok strides ∧ strides.length = shape.length ∧
      ∀ j, j < shape.length → strides.getD j 0 = (shape.drop (j + 1)).prod % u32 := by
  have hn : shape.length ≠ 0 := by omega
  refine ⟨compute_strides_loop shape (shape.length - 1)
    ((List.replicate shape.length 0).set (shape.length - 1) 1), ?_, ?_, ?_⟩
  · simp only [compute_strides, if_neg hn]
  · simp [compute_strides_loop_length]
  · intro j hj
    apply compute_strides_loop_getD shape _ _ (by omega) (by simp) _ j hj
    intro m hm hmn
    have hm' : m = shape.length - 1 := by omega
    subst hm'
    have hlt : shape.length - 1 < (List.replicate shape.length 0).length := by simp; omega
    have hdrop : shape.drop (shape.length - 1 + 1) = [] := by
      apply List.drop_eq_nil_of_le; omega
    simp only [List.getD_eq_getElem?_getD, List.getElem?_set_self hlt, Option.getD_some, hdrop]
    decide

/-- The two stride loops run the same steps. -/
theorem get_strides_loop_eq (shape : List Nat) (c : Nat) (strides : List Nat) :
    get_strides_loop shape c strides = compute_strides_loop shape c strides := by
  induction c generalizing strides with
  | zero => rfl
  | succ i ih => simp only [get_strides_loop, compute_strides_loop, ih]

/-- The function `get_strides` computes what `compute_strides` computes. -/
theorem get_strides_eq (shape : List Nat) : get_strides shape = compute_strides shape := by
  simp only [get_strides, compute_strides, get_strides_loop_eq]

/-! ## The offset map of `tensor_flip_cpu` -/

theorem coord_mul_add_le (d s q : Nat) (hq : q < d) : q * s + s ≤ d * s := by
  have h := Nat.mul_le_mul_right s (Nat.succ_le_of_lt hq)
  rw [Nat.succ_mul] at h
  exact h

/-- The `uint32_t` expression `shape[dim] - 1 - coord` does not wrap for a
coordinate inside the dimension. -/
theorem flip_coord_exact (d q : Nat) (hq : q < d) (hd : d < u32) :
    (d + u32 - 1 + u32 - q) % u32 = d - 1 - q := by
  unfold u32 at *
  omega

/-- Below `2^32` the inner loop of `tensor_flip_cpu` computes `flipped_offset`
of the axes that are left, added to `dst_linear`. -/
theorem flip_dims_loop_eq (shape strides dims : List Nat)
    (hdims : ∀ d ∈ shape, 1 ≤ d) (hvol : shape.prod < u32)
    (hstr : ∀ j, j < shape.length → strides.getD j 0 = (shape.drop (j + 1)).prod % u32)
    (k : Nat) (hk : k ≤ shape.length) (linear dst : Nat)
    (hlin : linear < (shape.drop (shape.length - k)).prod)
    (hdst : dst + (shape.drop (shape.length - k)).prod ≤ u32) :
    flip_dims_loop shape strides dims shape.length k linear dst =
      .ok (dst + flipped_offset dims (shape.length - k) (shape.drop (shape.length - k)) linear) := by
  induction k generalizing linear dst with
  | zero => simp [flip_dims_loop, flipped_offset]
  | succ k ih =>
    have hdim : shape.length - (k + 1) < shape.length := by omega
    have hnext : shape.length - k = shape.length - (k + 1) + 1 := by omega
    have hsplit := List.drop_eq_getElem_cons hdim
    have hd_mem : shape[shape.length - (k + 1)] ∈ shape := List.getElem_mem hdim
    have hd1 : 1 ≤ shape[shape.length - (k + 1)] := hdims _ hd_mem
    have hgetD : shape.getD (shape.length - (k + 1)) 0 = shape[shape.length - (k + 1)] := by
      simp [List.getD_eq_getElem?_getD, List.getElem?_eq_getElem hdim]
    have hs_pos : 0 < (shape.drop (shape.length - k)).prod :=
      prod_pos_of_dims _ (fun x hx => hdims x (List.mem_of_mem_drop hx))
    have hs_le : (shape.drop (shape.length - (k + 1))).prod ≤ shape.prod :=
      prod_drop_le shape hdims _
    have hstride : strides.getD (shape.length - (k + 1)) 0 = (shape.drop (shape.length - k)).prod := by
      rw [hstr _ hdim, ← hnext]
      have := prod_drop_le shape hdims (shape.length - k)
      exact Nat.mod_eq_of_lt (by omega)
    rw [hsplit, List.prod_cons, ← hnext] at hlin hdst hs_le
    rw [hsplit, ← hnext]
    generalize hS : (shape.drop (shape.length - k)).prod = s at *
    generalize hD : shape[shape.length - (k + 1)] = d at *
    have hq : linear / s < d := Nat.div_lt_of_lt_mul (by rw [Nat.mul_comm]; exact hlin)
    have hds : d ≤ d * s := Nat.le_mul_of_pos_right d hs_pos
    have hdu : d < u32 := by omega
    have hr : linear % s < s := Nat.mod_lt _ hs_pos
    simp only [flip_dims_loop, hstride, hgetD, flipped_offset, hS]
    rw [if_neg (Nat.pos_iff_ne_zero.mp hs_pos)]
    have hqmod : linear / s % u32 = linear / s := Nat.mod_eq_of_lt (by omega)
    rw [hqmod, flip_coord_exact d (linear / s) hq hdu]
    by_cases hmem : shape.length - (k + 1) ∈ dims
    · simp only [if_pos hmem]
      have hq' : d - 1 - linear / s < d := by omega
      have hb := coord_mul_add_le d s _ hq'
      have h1 : (d - 1 - linear / s) * s % u32 = (d - 1 - linear / s) * s :=
        Nat.mod_eq_of_lt (by omega)
      have h2 : (dst + (d - 1 - linear / s) * s) % u64 = dst + (d - 1 - linear / s) * s :=
        Nat.mod_eq_of_lt (by unfold u64; unfold u32 at hdst; omega)
      rw [h1, h2, ← hnext, ih (by omega) _ _ hr (by omega), Nat.add_assoc]
    · simp only [if_neg hmem]
      have hb := coord_mul_add_le d s _ hq
      have h1 : linear / s * s % u32 = linear / s * s := Nat.mod_eq_of_lt (by omega)
      have h2 : (dst + linear / s * s) % u64 = dst + linear / s * s :=
        Nat.mod_eq_of_lt (by unfold u64; unfold u32 at hdst; omega)
      rw [h1, h2, ← hnext, ih (by omega) _ _ hr (by omega), Nat.add_assoc]

/-- Quotient and remainder of `q * s + r` for `r < s`. -/
theorem div_mod_of_mul_add (q s r : Nat) (hr : r < s) :
    (q * s + r) / s = q ∧ (q * s + r) % s = r := by
  have hs : 0 < s := by omega
  constructor
  · rw [Nat.add_comm, Nat.add_mul_div_right _ _ hs, Nat.div_eq_of_lt hr, Nat.zero_add]
  · rw [Nat.add_comm, Nat.add_mul_mod_self_right, Nat.mod_eq_of_lt hr]

/-- The flipped offset stays inside the volume. -/
theorem flipped_offset_lt (dims : List Nat) (a : Nat) (shape : List Nat)
    (hdims : ∀ d ∈ shape, 1 ≤ d) (idx : Nat) (hidx : idx < shape.prod) :
    flipped_offset dims a shape idx < shape.prod := by
  induction shape generalizing a idx with
  | nil => simp [flipped_offset]
  | cons d rest ih =>
    have hs : 0 < rest.prod := prod_pos_of_dims _ (fun x hx => hdims x (by simp [hx]))
    have hrec := ih (a + 1) (fun x hx => hdims x (by simp [hx])) (idx % rest.prod)
      (Nat.mod_lt _ hs)
    rw [List.prod_cons] at hidx ⊢
    have hq : idx / rest.prod < d := Nat.div_lt_of_lt_mul (by rw [Nat.mul_comm]; exact hidx)
    simp only [flipped_offset]
    generalize idx / rest.prod = q at *
    generalize flipped_offset dims (a + 1) rest (idx % rest.prod) = f at *
    split
    · have := coord_mul_add_le d rest.prod (d - 1 - q) (by omega)
      omega
    · have := coord_mul_add_le d rest.prod q hq
      omega

/-- Flipping twice gives the offset back. -/
theorem flipped_offset_involutive (dims : List Nat) (a : Nat) (shape : List Nat)
    (hdims : ∀ d ∈ shape, 1 ≤ d) (idx : Nat) (hidx : idx < shape.prod) :
    flipped_offset dims a shape (flipped_offset dims a shape idx) = idx := by
  induction shape generalizing a idx with
  | nil => simp at hidx; simp [flipped_offset, hidx]
  | cons d rest ih =>
    have hrest : ∀ x ∈ rest, 1 ≤ x := fun x hx => hdims x (by simp [hx])
    have hs : 0 < rest.prod := prod_pos_of_dims _ hrest
    have hr : idx % rest.prod < rest.prod := Nat.mod_lt _ hs
    have hrec := ih (a + 1) hrest (idx % rest.prod) hr
    have hlt := flipped_offset_lt dims (a + 1) rest hrest (idx % rest.prod) hr
    rw [List.prod_cons] at hidx
    have hq : idx / rest.prod < d := Nat.div_lt_of_lt_mul (by rw [Nat.mul_comm]; exact hidx)
    have hsplit : idx / rest.prod * rest.prod + idx % rest.prod = idx := by
      rw [Nat.mul_comm]; exact Nat.div_add_mod idx rest.prod
    by_cases hmem : a ∈ dims
    · simp only [flipped_offset, if_pos hmem]
      obtain ⟨h1, h2⟩ := div_mod_of_mul_add (d - 1 - idx / rest.prod) rest.prod _ hlt
      rw [h1, h2, hrec]
      have : d - 1 - (d - 1 - idx / rest.prod) = idx / rest.prod := by
        generalize idx / rest.prod = q at *
        omega
      rw [this, hsplit]
    · simp only [flipped_offset, if_neg hmem]
      obtain ⟨h1, h2⟩ := div_mod_of_mul_add (idx / rest.prod) rest.prod _ hlt
      rw [h1, h2, hrec, hsplit]

/-- When no axis of the shape is listed the offset is unchanged. -/
theorem flipped_offset_id (dims : List Nat) (a : Nat) (shape : List Nat)
    (hno : ∀ i, i < shape.length → a + i ∉ dims)
    (hdims : ∀ d ∈ shape, 1 ≤ d) (idx : Nat) (hidx : idx < shape.prod) :
    flipped_offset dims a shape idx = idx := by
  induction shape generalizing a idx with
  | nil => simp at hidx; simp [flipped_offset, hidx]
  | cons d rest ih =>
    have hrest : ∀ x ∈ rest, 1 ≤ x := fun x hx => hdims x (by simp [hx])
    have hs : 0 < rest.prod := prod_pos_of_dims _ hrest
    have ha : a ∉ dims := by simpa using hno 0 (by simp)
    have hrec := ih (a + 1)
      (fun i hi => by have := hno (i + 1) (by simpa using hi); rwa [Nat.add_assoc, Nat.add_comm 1])
      hrest (idx % rest.prod) (Nat.mod_lt _ hs)
    simp only [flipped_offset, if_neg ha, hrec]
    rw [Nat.mul_comm]; exact Nat.div_add_mod idx rest.prod

/-- When every axis of dimension above 1 is listed the offset is mirrored in the
whole buffer. -/
theorem flipped_offset_reverse (dims : List Nat) (a : Nat) (shape : List Nat)
    (hall : ∀ i, i < shape.length → 1 < shape.getD i 0 → a + i ∈ dims)
    (hdims : ∀ d ∈ shape, 1 ≤ d) (idx : Nat) (hidx : idx < shape.prod) :
    flipped_offset dims a shape idx = shape.prod - 1 - idx := by
  induction shape generalizing a idx with
  | nil => simp at hidx; simp [flipped_offset, hidx]
  | cons d rest ih =>
    have hrest : ∀ x ∈ rest, 1 ≤ x := fun x hx => hdims x (by simp [hx])
    have hs : 0 < rest.prod := prod_pos_of_dims _ hrest
    have hr : idx % rest.prod < rest.prod := Nat.mod_lt _ hs
    have hrec := ih (a + 1)
      (fun i hi hgt => by
        have := hall (i + 1) (by simpa using hi) (by simpa using hgt)
        rwa [Nat.add_assoc, Nat.add_comm 1])
      hrest (idx % rest.prod) hr
    rw [List.prod_cons] at hidx ⊢
    have hq : idx / rest.prod < d := Nat.div_lt_of_lt_mul (by rw [Nat.mul_comm]; exact hidx)
    have hsplit : idx / rest.prod * rest.prod + idx % rest.prod = idx := by
      rw [Nat.mul_comm]; exact Nat.div_add_mod idx rest.prod
    simp only [flipped_offset, hrec]
    generalize idx / rest.prod = q at *
    generalize idx % rest.prod = r at *
    generalize rest.prod = s at *
    have hkey : (d - 1 - q) * s + (s - 1 - r) = d * s - 1 - idx := by
      have hsum : (d - 1 - q) * s + s + q * s = d * s := by
        rw [← Nat.succ_mul, ← Nat.add_mul]
        congr 1
        omega
      generalize (d - 1 - q) * s = x at *
      generalize q * s = y at *
      generalize d * s = z at *
      omega
    by_cases hmem : a ∈ dims
    · rw [if_pos hmem]; exact hkey
    · rw [if_neg hmem]
      have hd1 : d = 1 := by
        have hd := hdims d (by simp)
        by_contra hne
        exact hmem (by simpa using hall 0 (by simp) (by simp; omega))
      subst hd1
      have hq0 : q = 0 := by omega
      subst hq0
      simp only [Nat.zero_mul, Nat.one_mul, Nat.zero_add] at hsplit ⊢
      omega

theorem u32_eq : u32 = 2 ^ 32 := by decide

/-- With the strides of `compute_strides` and a volume below `2^32` the inner
loop returns the exact flipped offset. -/
theorem dst_linear_of_eq (shape strides dims : List Nat) (hrank : 1 ≤ shape.length)
    (hdims : ∀ d ∈ shape, 1 ≤ d) (hvol : volume shape < 2 ^ 32)
    (hstr : compute_strides shape = .ok strides) (idx : Nat) (hidx : idx < volume shape) :
    dst_linear_of shape strides dims idx = .ok (flipped_offset dims 0 shape idx) := by
  obtain ⟨st, hst, _, hget⟩ := compute_strides_closed shape hrank
  rw [hstr] at hst
  cases hst
  rw [← u32_eq] at hvol
  unfold volume at hvol hidx
  have h := flip_dims_loop_eq shape strides dims hdims hvol hget shape.length (le_refl _) idx 0
    (by simpa using hidx) (by simp only [Nat.sub_self, List.drop_zero]; omega)
  simpa [dst_linear_of] using h

/-- The offset map below `2^32`: it returns the exact flipped offset. -/
theorem flip_offset_eq (shape dims : List Nat) (hrank : 1 ≤ shape.length)
    (hdims : ∀ d ∈ shape, 1 ≤ d) (hvol : volume shape < 2 ^ 32)
    (idx : Nat) (hidx : idx < volume shape) :
    flip_offset shape dims idx = .ok (flipped_offset dims 0 shape idx) := by
  obtain ⟨st, hst, _, _⟩ := compute_strides_closed shape hrank
  simp only [flip_offset, hst]
  exact dst_linear_of_eq shape st dims hrank hdims hvol hst idx hidx

/-! ## The outer loop of `tensor_flip_cpu` -/

/-- Invariant of the outer loop for an injective offset map `f` into the buffer:
the iterations that ran stored `src[idx]` at `f idx`, the other targets are
untouched. -/
theorem tensor_flip_loop_spec (src shape strides dims : List Nat) (f : Nat → Nat) (numel : Nat)
    (hsrc : src.length = numel)
    (hf : ∀ idx, idx < numel → dst_linear_of shape strides dims idx = .ok (f idx))
    (hlt : ∀ idx, idx < numel → f idx < numel)
    (hinj : ∀ i j, i < numel → j < numel → f i = f j → i = j)
    (k : Nat) (hk : k ≤ numel) (dst : List Nat) (hdst : dst.length = numel) :
    ∃ out, tensor_flip_loop src shape strides dims numel k dst = .ok out ∧
      out.length = numel ∧
      (∀ idx, numel - k ≤ idx → idx < numel → out[f idx]? = src[idx]?) ∧
      (∀ idx, idx < numel - k → out[f idx]? = dst[f idx]?) := by
  induction k generalizing dst with
  | zero =>
    refine ⟨dst, rfl, hdst, ?_, fun _ _ => rfl⟩
    intro idx h1 h2
    omega
  | succ k ih =>
    have h0 : numel - (k + 1) < numel := by omega
    have hpos : f (numel - (k + 1)) < dst.length := by rw [hdst]; exact hlt _ h0
    obtain ⟨out, hout, hlen, hdone, hkeep⟩ := ih (by omega)
      (dst.set (f (numel - (k + 1))) (src.getD (numel - (k + 1)) 0)) (by simp [hdst])
    refine ⟨out, ?_, hlen, ?_, ?_⟩
    · simp only [tensor_flip_loop, hf _ h0, if_pos hpos]
      exact hout
    · intro idx h1 h2
      by_cases heq : idx = numel - (k + 1)
      · subst heq
        rw [hkeep _ (by omega), List.getElem?_set_self hpos]
        have hs0 : numel - (k + 1) < src.length := by rw [hsrc]; exact h0
        simp only [List.getD_eq_getElem?_getD, List.getElem?_eq_getElem hs0, Option.getD_some]
      · exact hdone idx (by omega) h2
    · intro idx h1
      rw [hkeep idx (by omega)]
      apply List.getElem?_set_ne
      intro h
      have := hinj _ _ h0 (by omega) h
      omega

/-- A fault of the inner loop at the first offset that is left stops the outer
loop. -/
theorem tensor_flip_loop_fault (src shape strides dims : List Nat) (numel k : Nat)
    (dst : List Nat) (e : Fault)
    (h : dst_linear_of shape strides dims (numel - (k + 1)) = .error e) :
    tensor_flip_loop src shape strides dims numel (k + 1) dst = .error e := by
  simp only [tensor_flip_loop, h]

theorem resize_length (dst : List Nat) (numel : Nat) : (resize dst numel).length = numel := by
  simp only [resize, List.length_append, List.length_take, List.length_replicate]
  omega

/-- Below `2^32`, `tensor_flip_cpu` returns a buffer of the length of `src` that
holds `src[idx]` at the exact flipped offset of `idx`. -/
theorem tensor_flip_cpu_spec (src dst shape dims : List Nat) (hrank : 1 ≤ shape.length)
    (hdims : ∀ d ∈ shape, 1 ≤ d) (hvol : volume shape < 2 ^ 32)
    (hsrc : src.length = volume shape) :
    ∃ out, tensor_flip_cpu src dst shape dims = .ok out ∧ out.length = volume shape ∧
      ∀ idx, idx < volume shape → out[flipped_offset dims 0 shape idx]? = src[idx]? := by
  obtain ⟨st, hst, _, _⟩ := compute_strides_closed shape hrank
  obtain ⟨out, hout, hlen, hdone, _⟩ :=
    tensor_flip_loop_spec src shape st dims (flipped_offset dims 0 shape) (volume shape) hsrc
      (fun idx h => dst_linear_of_eq shape st dims hrank hdims hvol hst idx h)
      (fun idx h => flipped_offset_lt dims 0 shape hdims idx h)
      (fun i j hi hj h => by
        have := congrArg (flipped_offset dims 0 shape) h
        rwa [flipped_offset_involutive dims 0 shape hdims i hi,
          flipped_offset_involutive dims 0 shape hdims j hj] at this)
      (volume shape) (le_refl _) (resize dst (volume shape)) (resize_length _ _)
  refine ⟨out, ?_, hlen, fun idx h => hdone idx (by omega) h⟩
  simp only [tensor_flip_cpu, hst, hsrc]
  exact hout

/-! ## Coordinates -/

theorem suffix_products_length (shape : List Nat) :
    (suffix_products shape).length = shape.length := by
  induction shape with
  | nil => rfl
  | cons d rest ih => simp [suffix_products, ih]

theorem suffix_products_getD (shape : List Nat) (j : Nat) (hj : j < shape.length) :
    (suffix_products shape).getD j 0 = (shape.drop (j + 1)).prod := by
  induction shape generalizing j with
  | nil => simp at hj
  | cons d rest ih =>
    cases j with
    | zero => simp [suffix_products]
    | succ j =>
      have := ih j (by simpa using hj)
      simpa [suffix_products] using this

/-- Two lists of one length with the same entries are equal. -/
theorem list_eq_of_getD (l₁ l₂ : List Nat) (hlen : l₁.length = l₂.length)
    (h : ∀ j, j < l₁.length → l₁.getD j 0 = l₂.getD j 0) : l₁ = l₂ := by
  apply List.ext_getElem hlen
  intro j h1 h2
  have := h j h1
  simpa [List.getD_eq_getElem?_getD, List.getElem?_eq_getElem h1,
    List.getElem?_eq_getElem h2] using this

/-- Below `2^32` the table of `compute_strides` is the exact row-major table. -/
theorem compute_strides_exact (shape : List Nat) (hrank : 1 ≤ shape.length)
    (hdims : ∀ d ∈ shape, 1 ≤ d) (hvol : volume shape < 2 ^ 32) :
    compute_strides shape = .ok (suffix_products shape) := by
  obtain ⟨st, hst, hlen, hget⟩ := compute_strides_closed shape hrank
  rw [hst]
  congr 1
  apply list_eq_of_getD _ _ (by rw [hlen, suffix_products_length])
  intro j hj
  rw [hlen] at hj
  rw [hget j hj, suffix_products_getD shape j hj]
  have := prod_drop_le shape hdims (j + 1)
  rw [← u32_eq] at hvol
  unfold volume at hvol
  exact Nat.mod_eq_of_lt (by omega)

/-- The offset of a coordinate tuple inside the shape is inside the volume, and
the exact flip of that offset is the offset of the flipped tuple. -/
theorem flipped_offset_coords (dims : List Nat) (a : Nat) (shape coords : List Nat)
    (hc : List.Forall₂ (fun x d => x < d) coords shape) :
    row_major_offset (suffix_products shape) coords < shape.prod ∧
    flipped_offset dims a shape (row_major_offset (suffix_products shape) coords) =
      row_major_offset (suffix_products shape) (flip_coords_from dims a shape coords) := by
  induction hc generalizing a with
  | nil => simp [row_major_offset, suffix_products, flipped_offset, flip_coords_from]
  | @cons x d coords rest hx _ ih =>
    obtain ⟨hlt, heq⟩ := ih (a + 1)
    have hoff : row_major_offset (suffix_products (d :: rest)) (x :: coords) =
        x * rest.prod + row_major_offset (suffix_products rest) coords := by
      simp [row_major_offset, suffix_products]
    obtain ⟨h1, h2⟩ := div_mod_of_mul_add x rest.prod _ hlt
    refine ⟨?_, ?_⟩
    · rw [hoff, List.prod_cons]
      have := coord_mul_add_le d rest.prod x hx
      omega
    · rw [hoff]
      simp only [flipped_offset, h1, h2, heq, flip_coords_from]
      simp [row_major_offset, suffix_products]

/-! ## Claims about the strides -/

/-- Claim C6: for a shape of rank `n ≥ 1`, `compute_strides` returns a table of
length `n` whose last entry is 1 and whose entry `i` is entry `i + 1` times
`shape[i + 1]` in 32-bit unsigned arithmetic, for every `i` with `i + 1 < n`;
`get_strides` returns the same table. -/
theorem compute_strides_row_major (shape : List Nat) (hrank : 1 ≤ shape.length) :
    ∃ strides, compute_strides shape = .ok strides ∧
      strides.length = shape.length ∧
      strides[shape.length - 1]? = some 1 ∧
      (∀ i, i + 1 < shape.length →
        strides[i]? = some ((strides.getD (i + 1) 0 * shape.getD (i + 1) 0) % 2 ^ 32)) ∧
      get_strides shape = .ok strides := by
  obtain ⟨st, hst, hlen, hget⟩ := compute_strides_closed shape hrank
  refine ⟨st, hst, hlen, ?_, ?_, by rw [get_strides_eq, hst]⟩
  · have hl : shape.length - 1 < st.length := by omega
    have h := hget (shape.length - 1) (by omega)
    have hdrop : shape.drop (shape.length - 1 + 1) = [] := by
      apply List.drop_eq_nil_of_le; omega
    rw [hdrop] at h
    simp only [List.getD_eq_getElem?_getD, List.getElem?_eq_getElem hl, Option.getD_some] at h
    rw [List.getElem?_eq_getElem hl, h]
    rfl
  · intro i hi
    have hl : i < st.length := by omega
    have h0 := hget i (by omega)
    have h1 := hget (i + 1) hi
    have h2 := prod_drop_split shape (i + 1) hi
    simp only [List.getD_eq_getElem?_getD, List.getElem?_eq_getElem hl, Option.getD_some] at h0
    rw [List.getElem?_eq_getElem hl, h0, h1, h2, ← u32_eq, Nat.mod_mul_mod, Nat.mul_comm]

/-- The shape of `main`, `(1, 3, 96, 96)`, has rank 4; its table is
`(27648, 9216, 96, 1)`. -/
theorem compute_strides_row_major_witness :
    1 ≤ [1, 3, 96, 96].length ∧
    ∃ strides, compute_strides [1, 3, 96, 96] = .ok strides ∧
      strides.length = [1, 3, 96, 96].length ∧
      strides[[1, 3, 96, 96].length - 1]? = some 1 ∧
      (∀ i, i + 1 < [1, 3, 96, 96].length →
        strides[i]? = some ((strides.getD (i + 1) 0 * [1, 3, 96, 96].getD (i + 1) 0) % 2 ^ 32)) ∧
      get_strides [1, 3, 96, 96] = .ok strides :=
  ⟨by decide, compute_strides_row_major [1, 3, 96, 96] (by decide)⟩

/-! ## Claims about the offset map -/

/-- Claim C1: for a shape of rank at least 1 with all dimensions at least 1 and
volume below `2^32`, and any `dims_to_flip`, the offset map of `tensor_flip_cpu`
returns for every `idx` below the volume a value below the volume, it is
injective there and every value below the volume is taken: it is a permutation
of `[0, volume)`. -/
theorem flip_offset_permutation (shape dims_to_flip : List Nat) (hrank : 1 ≤ shape.length)
    (hdims : ∀ d ∈ shape, 1 ≤ d) (hvol : volume shape < 2 ^ 32) :
    (∀ idx, idx < volume shape →
      ∃ y, flip_offset shape dims_to_flip idx = .ok y ∧ y < volume shape) ∧
    (∀ i j, i < volume shape → j < volume shape →
      flip_offset shape dims_to_flip i = flip_offset shape dims_to_flip j → i = j) ∧
    (∀ y, y < volume shape →
      ∃ idx, idx < volume shape ∧ flip_offset shape dims_to_flip idx = .ok y) := by
  have heq := flip_offset_eq shape dims_to_flip hrank hdims hvol
  have hlt := flipped_offset_lt dims_to_flip 0 shape hdims
  have hinv := flipped_offset_involutive dims_to_flip 0 shape hdims
  refine ⟨fun idx h => ⟨_, heq idx h, hlt idx h⟩, ?_, ?_⟩
  · intro i j hi hj h
    rw [heq i hi, heq j hj] at h
    have h' : flipped_offset dims_to_flip 0 shape i = flipped_offset dims_to_flip 0 shape j := by
      simpa using h
    have := congrArg (flipped_offset dims_to_flip 0 shape) h'
    rwa [hinv i hi, hinv j hj] at this
  · intro y hy
    refine ⟨flipped_offset dims_to_flip 0 shape y, hlt y hy, ?_⟩
    rw [heq _ (hlt y hy), hinv y hy]

/-- The shape `(1, 1, 2, 2)` with both inner axes flipped. -/
theorem flip_offset_permutation_witness :
    (1 ≤ [1, 1, 2, 2].length ∧ (∀ d ∈ [1, 1, 2, 2], 1 ≤ d) ∧ volume [1, 1, 2, 2] < 2 ^ 32) ∧
    ((∀ idx, idx < volume [1, 1, 2, 2] →
      ∃ y, flip_offset [1, 1, 2, 2] [2, 3] idx = .ok y ∧ y < volume [1, 1, 2, 2]) ∧
    (∀ i j, i < volume [1, 1, 2, 2] → j < volume [1, 1, 2, 2] →
      flip_offset [1, 1, 2, 2] [2, 3] i = flip_offset [1, 1, 2, 2] [2, 3] j → i = j) ∧
    (∀ y, y < volume [1, 1, 2, 2] →
      ∃ idx, idx < volume [1, 1, 2, 2] ∧ flip_offset [1, 1, 2, 2] [2, 3] idx = .ok y)) :=
  ⟨⟨by decide, by decide, by decide⟩,
    flip_offset_permutation [1, 1, 2, 2] [2, 3] (by decide) (by decide) (by decide)⟩

/-- Claim C2, as amended: for a shape of rank at least 1 with all dimensions at
least 1 and volume below `2^32`, any `dims_to_flip` and any `idx` below the
volume, the offset map of `tensor_flip_cpu` returns an offset that the same map
sends back to `idx`. -/
theorem flip_offset_involution (shape dims_to_flip : List Nat) (hrank : 1 ≤ shape.length)
    (hdims : ∀ d ∈ shape, 1 ≤ d) (hvol : volume shape < 2 ^ 32)
    (idx : Nat) (hidx : idx < volume shape) :
    ∃ y, flip_offset shape dims_to_flip idx = .ok y ∧
      flip_offset shape dims_to_flip y = .ok idx := by
  have hlt := flipped_offset_lt dims_to_flip 0 shape hdims idx hidx
  refine ⟨_, flip_offset_eq shape dims_to_flip hrank hdims hvol idx hidx, ?_⟩
  rw [flip_offset_eq shape dims_to_flip hrank hdims hvol _ hlt,
    flipped_offset_involutive dims_to_flip 0 shape hdims idx hidx]

/-- Offset 5 of the shape `(1, 1, 4, 4)` flipped on its last axis. -/
theorem flip_offset_involution_witness :
    (1 ≤ [1, 1, 4, 4].length ∧ (∀ d ∈ [1, 1, 4, 4], 1 ≤ d) ∧ volume [1, 1, 4, 4] < 2 ^ 32 ∧
      5 < volume [1, 1, 4, 4]) ∧
    ∃ y, flip_offset [1, 1, 4, 4] [3] 5 = .ok y ∧ flip_offset [1, 1, 4, 4] [3] y = .ok 5 :=
  ⟨⟨by decide, by decide, by decide, by decide⟩,
    flip_offset_involution [1, 1, 4, 4] [3] (by decide) (by decide) (by decide) 5 (by decide)⟩

/-- Claim C2 fails above `2^32`: for the shape `(2^31, 4)` of volume `2^33` flipped
on axis 0, offset `2^32` goes to `2^32 - 4` and `2^32 - 4` goes to 0, because
`coord * strides[dim]` wraps around in `uint32_t`. -/
theorem flip_offset_twice_wraps :
    1 ≤ [2147483648, 4].length ∧ (∀ d ∈ [2147483648, 4], 1 ≤ d) ∧
    4294967296 < volume [2147483648, 4] ∧
    flip_offset [2147483648, 4] [0] 4294967296 = .ok 4294967292 ∧
    flip_offset [2147483648, 4] [0] 4294967292 = .ok 0 := by
  decide

/-! ## Claims about `tensor_flip_cpu` -/

/-- Claim C3, as amended: for a shape of rank at least 1 with all dimensions at
least 1 and volume below `2^32`, any `dims_to_flip` and any `src` of length
`volume shape`, `tensor_flip_cpu` returns, `dst` has length `volume shape`, and
for every coordinate tuple `c` with `c[d] < shape[d]` the element of `src` at the
row-major offset of `c` is in `dst` at the row-major offset of the flipped
tuple. -/
theorem tensor_flip_cpu_coords (src dst shape dims_to_flip : List Nat)
    (hrank : 1 ≤ shape.length) (hdims : ∀ d ∈ shape, 1 ≤ d) (hvol : volume shape < 2 ^ 32)
    (hsrc : src.length = volume shape) :
    ∃ strides out, compute_strides shape = .ok strides ∧
      tensor_flip_cpu src dst shape dims_to_flip = .ok out ∧
      out.length = volume shape ∧
      ∀ c, List.Forall₂ (fun x d => x < d) c shape →
        row_major_offset strides c < volume shape ∧
        out[row_major_offset strides (flip_coords shape dims_to_flip c)]? =
          src[row_major_offset strides c]? := by
  obtain ⟨out, hout, hlen, hall⟩ :=
    tensor_flip_cpu_spec src dst shape dims_to_flip hrank hdims hvol hsrc
  refine ⟨suffix_products shape, out, compute_strides_exact shape hrank hdims hvol, hout,
    hlen, ?_⟩
  intro c hc
  obtain ⟨h1, h2⟩ := flipped_offset_coords dims_to_flip 0 shape c hc
  refine ⟨h1, ?_⟩
  rw [flip_coords, ← h2]
  exact hall _ h1

/-- The shape `(1, 1, 4, 4)` flipped on its last axis, with `src = [0..15]`. -/
theorem tensor_flip_cpu_coords_witness :
    (1 ≤ [1, 1, 4, 4].length ∧ (∀ d ∈ [1, 1, 4, 4], 1 ≤ d) ∧ volume [1, 1, 4, 4] < 2 ^ 32 ∧
      (List.range 16).length = volume [1, 1, 4, 4]) ∧
    (∃ strides out, compute_strides [1, 1, 4, 4] = .ok strides ∧
      tensor_flip_cpu (List.range 16) [] [1, 1, 4, 4] [3] = .ok out ∧
      out.length = volume [1, 1, 4, 4] ∧
      ∀ c, List.Forall₂ (fun x d => x < d) c [1, 1, 4, 4] →
        row_major_offset strides c < volume [1, 1, 4, 4] ∧
        out[row_major_offset strides (flip_coords [1, 1, 4, 4] [3] c)]? =
          (List.range 16)[row_major_offset strides c]?) ∧
    tensor_flip_cpu (List.range 16) [] [1, 1, 4, 4] [3] =
      .ok [3, 2, 1, 0, 7, 6, 5, 4, 11, 10, 9, 8, 15, 14, 13, 12] :=
  ⟨⟨by decide, by decide, by decide, by decide⟩,
    tensor_flip_cpu_coords (List.range 16) [] [1, 1, 4, 4] [3]
      (by decide) (by decide) (by decide) (by decide), by decide⟩

/-- Claim C3 fails above `2^32`: for the shape `(1, 65536, 65536)` the stride of
axis 0 wraps around to 0, so for a `src` of `2^32` elements the first iteration
divides by zero and `tensor_flip_cpu` does not return. -/
theorem tensor_flip_cpu_zero_stride :
    1 ≤ [1, 65536, 65536].length ∧ (∀ d ∈ [1, 65536, 65536], 1 ≤ d) ∧
    (List.replicate 4294967296 0).length = volume [1, 65536, 65536] ∧
    compute_strides [1, 65536, 65536] = .ok [0, 65536, 1] ∧
    tensor_flip_cpu (List.replicate 4294967296 0) [] [1, 65536, 65536] [2] =
      .error .divisionByZero := by
  have hst : compute_strides [1, 65536, 65536] = .ok [0, 65536, 1] := by decide
  refine ⟨by decide, by decide, ?_, hst, ?_⟩
  · rw [List.length_replicate]; decide
  · simp only [tensor_flip_cpu, hst, List.length_replicate]
    exact tensor_flip_loop_fault _ _ _ _ 4294967296 4294967295 _ _ (by decide)

/-- Claim C4, as amended: for a shape of rank at least 1 with all dimensions at
least 1 and volume below `2^32`, a `dims_to_flip` that lists every axis of
dimension above 1 and any `src` of length `volume shape`, `tensor_flip_cpu`
returns the reversed buffer: `dst[volume - 1 - i] = src[i]` for every `i` below
the volume. -/
theorem tensor_flip_cpu_reverse (src dst shape dims_to_flip : List Nat)
    (hrank : 1 ≤ shape.length) (hdims : ∀ d ∈ shape, 1 ≤ d) (hvol : volume shape < 2 ^ 32)
    (hall : ∀ i, i < shape.length → 1 < shape.getD i 0 → i ∈ dims_to_flip)
    (hsrc : src.length = volume shape) :
    ∃ out, tensor_flip_cpu src dst shape dims_to_flip = .ok out ∧
      out.length = volume shape ∧
      ∀ i, i < volume shape → out[volume shape - 1 - i]? = src[i]? := by
  obtain ⟨out, hout, hlen, hdone⟩ :=
    tensor_flip_cpu_spec src dst shape dims_to_flip hrank hdims hvol hsrc
  refine ⟨out, hout, hlen, ?_⟩
  intro i hi
  have h := hdone i hi
  rwa [flipped_offset_reverse dims_to_flip 0 shape
    (fun i hi hgt => by simpa using hall i hi hgt) hdims i hi] at h

/-- The shape `(1, 1, 2, 2)` flipped on axes 2 and 3, with `src = [1, 2, 3, 4]`. -/
theorem tensor_flip_cpu_reverse_witness :
    (1 ≤ [1, 1, 2, 2].length ∧ (∀ d ∈ [1, 1, 2, 2], 1 ≤ d) ∧ volume [1, 1, 2, 2] < 2 ^ 32 ∧
      (∀ i, i < [1, 1, 2, 2].length → 1 < [1, 1, 2, 2].getD i 0 → i ∈ [2, 3]) ∧
      [1, 2, 3, 4].length = volume [1, 1, 2, 2]) ∧
    (∃ out, tensor_flip_cpu [1, 2, 3, 4] [] [1, 1, 2, 2] [2, 3] = .ok out ∧
      out.length = volume [1, 1, 2, 2] ∧
      ∀ i, i < volume [1, 1, 2, 2] → out[volume [1, 1, 2, 2] - 1 - i]? = [1, 2, 3, 4][i]?) ∧
    tensor_flip_cpu [1, 2, 3, 4] [] [1, 1, 2, 2] [2, 3] = .ok [4, 3, 2, 1] :=
  ⟨⟨by decide, by decide, by decide, by decide, by decide⟩,
    tensor_flip_cpu_reverse [1, 2, 3, 4] [] [1, 1, 2, 2] [2, 3]
      (by decide) (by decide) (by decide) (by decide) (by decide), by decide⟩

/-- Claim C4 fails above `2^32`: for the shape `(2, 65536, 65536)` flipped on all
three axes the stride of axis 0 wraps around to 0, so for a `src` of `2^33`
elements the first iteration divides by zero and no reversed buffer is
returned. -/
theorem tensor_flip_cpu_reverse_zero_stride :
    1 ≤ [2, 65536, 65536].length ∧ (∀ d ∈ [2, 65536, 65536], 1 ≤ d) ∧
    (∀ i, i < [2, 65536, 65536].length → 1 < [2, 65536, 65536].getD i 0 → i ∈ [0, 1, 2]) ∧
    (List.replicate 8589934592 0).length = volume [2, 65536, 65536] ∧
    tensor_flip_cpu (List.replicate 8589934592 0) [] [2, 65536, 65536] [0, 1, 2] =
      .error .divisionByZero := by
  have hst : compute_strides [2, 65536, 65536] = .ok [0, 65536, 1] := by decide
  refine ⟨by decide, by decide, by decide, ?_, ?_⟩
  · rw [List.length_replicate]; decide
  · simp only [tensor_flip_cpu, hst, List.length_replicate]
    exact tensor_flip_loop_fault _ _ _ _ 8589934592 8589934591 _ _ (by decide)

/-- Claim C5, as amended: for a shape of rank at least 1 with all dimensions at
least 1 and volume below `2^32`, and an empty `dims_to_flip`, the offset map of
`tensor_flip_cpu` returns `idx` for every `idx` below the volume, and
`tensor_flip_cpu` returns `dst` equal to `src` for every `src` of length
`volume shape`. -/
theorem tensor_flip_cpu_no_flip (src dst shape : List Nat)
    (hrank : 1 ≤ shape.length) (hdims : ∀ d ∈ shape, 1 ≤ d) (hvol : volume shape < 2 ^ 32)
    (hsrc : src.length = volume shape) :
    (∀ idx, idx < volume shape → flip_offset shape [] idx = .ok idx) ∧
    tensor_flip_cpu src dst shape [] = .ok src := by
  have hid : ∀ idx, idx < volume shape → flipped_offset [] 0 shape idx = idx :=
    fun idx h => flipped_offset_id [] 0 shape (fun _ _ => by simp) hdims idx h
  refine ⟨fun idx h => by rw [flip_offset_eq shape [] hrank hdims hvol idx h, hid idx h], ?_⟩
  obtain ⟨out, hout, hlen, hdone⟩ := tensor_flip_cpu_spec src dst shape [] hrank hdims hvol hsrc
  rw [hout]
  congr 1
  apply List.ext_getElem? 
  intro i
  by_cases hi : i < volume shape
  · have := hdone i hi
    rwa [hid i hi] at this
  · rw [List.getElem?_eq_none (by omega), List.getElem?_eq_none (by omega)]

/-- The shape `(1, 1, 2, 2)` with no axis flipped, `src = [1, 2, 3, 4]`. -/
theorem tensor_flip_cpu_no_flip_witness :
    (1 ≤ [1, 1, 2, 2].length ∧ (∀ d ∈ [1, 1, 2, 2], 1 ≤ d) ∧ volume [1, 1, 2, 2] < 2 ^ 32 ∧
      [1, 2, 3, 4].length = volume [1, 1, 2, 2]) ∧
    ((∀ idx, idx < volume [1, 1, 2, 2] → flip_offset [1, 1, 2, 2] [] idx = .ok idx) ∧
    tensor_flip_cpu [1, 2, 3, 4] [7, 7] [1, 1, 2, 2] [] = .ok [1, 2, 3, 4]) :=
  ⟨⟨by decide, by decide, by decide, by decide⟩,
    tensor_flip_cpu_no_flip [1, 2, 3, 4] [7, 7] [1, 1, 2, 2]
      (by decide) (by decide) (by decide) (by decide)⟩

/-- Claim C5 fails above `2^32`: for the shape `(2^31, 4)` of volume `2^33` and
an empty `dims_to_flip`, offset `2^32` goes to 0, because `coord * strides[dim]`
wraps around in `uint32_t`. -/
theorem flip_offset_no_flip_wraps :
    1 ≤ [2147483648, 4].length ∧ (∀ d ∈ [2147483648, 4], 1 ≤ d) ∧
    4294967296 < volume [2147483648, 4] ∧
    flip_offset [2147483648, 4] [] 4294967296 = .ok 0 := by
  decide

/-! ## `get_tiled_shape` -/

/-- Invariant of the loop of `get_tiled_shape` for positive tile extents: it
returns, keeps what is already pushed and pushes `tiled_dim i` for the other
axes. -/
theorem get_tiled_shape_loop_spec (shape : List Nat) (tile_h tile_w : Nat)
    (hh : 0 < tile_h) (hw : 0 < tile_w) (k : Nat) (hk : k ≤ shape.length)
    (acc : List Nat) (hacc : acc.length = shape.length - k) :
    ∃ out, get_tiled_shape_loop shape tile_h tile_w k acc = .ok out ∧
      out.length = shape.length ∧
      (∀ i, i < shape.length - k → out[i]? = acc[i]?) ∧
      (∀ i, shape.length - k ≤ i → i < shape.length →
        out[i]? = some (tiled_dim shape tile_h tile_w i)) := by
  induction k generalizing acc with
  | zero =>
    refine ⟨acc, rfl, by simpa using hacc, fun _ _ => rfl, ?_⟩
    intro i h1 h2
    omega
  | succ k ih =>
    have key : ∀ v, v = tiled_dim shape tile_h tile_w (shape.length - (k + 1)) →
        get_tiled_shape_loop shape tile_h tile_w (k + 1) acc =
          get_tiled_shape_loop shape tile_h tile_w k (acc ++ [v]) := by
      intro v hv
      subst hv
      have hh0 : tile_h ≠ 0 := by omega
      have hw0 : tile_w ≠ 0 := by omega
      simp only [get_tiled_shape_loop, tiled_dim]
      split
      · rfl
      · split
        · rfl
        · rfl
    obtain ⟨out, hout, hlen, hkeep, hdone⟩ :=
      ih (by omega) (acc ++ [tiled_dim shape tile_h tile_w (shape.length - (k + 1))])
        (by simp [hacc]; omega)
    refine ⟨out, by rw [key _ rfl]; exact hout, hlen, ?_, ?_⟩
    · intro i hi
      rw [hkeep i (by omega), List.getElem?_append_left (by omega)]
    · intro i h1 h2
      by_cases heq : i = shape.length - (k + 1)
      · subst heq
        rw [hkeep _ (by omega), List.getElem?_append_right (by omega), hacc]
        simp
      · exact hdone i (by omega) h2

/-- Claim C7, as amended: for a shape of rank at least 2 and a tile shape with
positive extents, `get_tiled_shape` always returns (it never fails with a
dimension mismatch): the result has the rank of the shape, its last two
dimensions are the quotients `shape[rank-2] / tileHeight` and
`shape[rank-1] / tileWidth` rounded down, and every preceding dimension is
unchanged. -/
theorem get_tiled_shape_floor (shape : List Nat) (tile_h tile_w : Nat)
    (hrank : 2 ≤ shape.length) (hh : 0 < tile_h) (hw : 0 < tile_w) :
    ∃ out, get_tiled_shape shape tile_h tile_w = .ok out ∧
      out.length = shape.length ∧
      (∀ i, i + 2 < shape.length → out[i]? = shape[i]?) ∧
      out[shape.length - 2]? = some (shape.getD (shape.length - 2) 0 / tile_h) ∧
      out[shape.length - 1]? = some (shape.getD (shape.length - 1) 0 / tile_w) := by
  obtain ⟨out, hout, hlen, _, hdone⟩ :=
    get_tiled_shape_loop_spec shape tile_h tile_w hh hw shape.length (le_refl _) [] (by simp)
  refine ⟨out, hout, hlen, ?_, ?_, ?_⟩
  · intro i hi
    have hi' : i < shape.length := by omega
    rw [hdone i (by omega) hi', tiled_dim, if_neg (by omega), if_neg (by omega)]
    simp [List.getD_eq_getElem?_getD, List.getElem?_eq_getElem hi']
  · rw [hdone _ (by omega) (by omega), tiled_dim, if_neg (by omega), if_pos ⟨hrank, rfl⟩]
  · rw [hdone _ (by omega) (by omega), tiled_dim, if_pos rfl]

/-- The padded shape `(1, 3, 96, 96)` of `main` with 32 by 32 tiles. -/
theorem get_tiled_shape_floor_witness :
    (2 ≤ [1, 3, 96, 96].length ∧ 0 < 32 ∧ 0 < 32) ∧
    ∃ out, get_tiled_shape [1, 3, 96, 96] 32 32 = .ok out ∧
      out.length = [1, 3, 96, 96].length ∧
      (∀ i, i + 2 < [1, 3, 96, 96].length → out[i]? = [1, 3, 96, 96][i]?) ∧
      out[[1, 3, 96, 96].length - 2]? =
        some ([1, 3, 96, 96].getD ([1, 3, 96, 96].length - 2) 0 / 32) ∧
      out[[1, 3, 96, 96].length - 1]? =
        some ([1, 3, 96, 96].getD ([1, 3, 96, 96].length - 1) 0 / 32) :=
  ⟨⟨by decide, by decide, by decide⟩,
    get_tiled_shape_floor [1, 3, 96, 96] 32 32 (by decide) (by decide) (by decide)⟩

/-- Claim C7 fails as stated: the shape `(1, 1, 33, 32)` has a height that is not
a multiple of the tile height 32, and `get_tiled_shape` returns `(1, 1, 1, 1)`
instead of failing. -/
theorem get_tiled_shape_not_multiple :
    2 ≤ [1, 1, 33, 32].length ∧ 0 < 32 ∧ 33 % 32 ≠ 0 ∧
    get_tiled_shape [1, 1, 33, 32] 32 32 = .ok [1, 1, 1, 1] := by
  decide

/-! ## The tile ranges of the cores -/

/-- The loops over the ranges of a core range set visit the cores of the
flattened set in order. -/
theorem foldl_ranges (k : Nat) (ranges : List (List CoreCoord)) (st : RangeState) :
    ranges.foldl (fun st range => range.foldl (assign_core k) st) st =
      ranges.flatten.foldl (assign_core k) st := by
  induction ranges generalizing st with
  | nil => rfl
  | cons r rs ih => simp only [List.foldl_cons, List.flatten_cons, List.foldl_append, ih]

/-- The range loop over the cores of one group, while the counters stay below
`2^32`. -/
theorem foldl_assign_core (k : Nat) (cores : List CoreCoord) (st : RangeState)
    (heq : st.end_tile = st.start_tile) (hb : st.start_tile + cores.length * k < u32) :
    cores.foldl (assign_core k) st =
      ⟨st.start_tile + cores.length * k, st.start_tile + cores.length * k,
        st.calls ++ range_calls k st.start_tile cores⟩ := by
  induction cores generalizing st with
  | nil => cases st; simp_all [range_calls]
  | cons c cs ih =>
    have hlen : (c :: cs).length * k = k + cs.length * k := by
      rw [List.length_cons, Nat.succ_mul, Nat.add_comm]
    rw [hlen] at hb ⊢
    have hmod : (st.start_tile + k) % u32 = st.start_tile + k := Nat.mod_eq_of_lt (by omega)
    have hstep : assign_core k st c =
        ⟨st.start_tile + k, st.start_tile + k,
          st.calls ++ [⟨c, st.start_tile, st.start_tile + k, st.start_tile, st.start_tile + k⟩]⟩ := by
      simp only [assign_core, heq, hmod]
    rw [List.foldl_cons, hstep, ih _ rfl (by simp only; omega)]
    simp only [range_calls, List.append_assoc, List.singleton_append, Nat.add_assoc]

/-- Without wrap-around the range loop makes the calls of group 1 from tile 0
and then the calls of group 2 from the end of group 1. -/
theorem assign_ranges_eq (g1 g2 : List (List CoreCoord)) (k1 k2 : Nat)
    (hb : g1.flatten.length * k1 + g2.flatten.length * k2 < u32) :
    assign_ranges [(g1, k1), (g2, k2)] =
      ⟨g1.flatten.length * k1 + g2.flatten.length * k2, g1.flatten.length * k1 + g2.flatten.length * k2,
        range_calls k1 0 g1.flatten ++ range_calls k2 (g1.flatten.length * k1) g2.flatten⟩ := by
  simp only [assign_ranges, List.foldl_cons, List.foldl_nil, foldl_ranges]
  rw [foldl_assign_core k1 g1.flatten _ rfl (by simp only; omega)]
  rw [foldl_assign_core k2 g2.flatten _ rfl (by simp only; omega)]
  simp

theorem range_calls_core (k s : Nat) (cores : List CoreCoord) :
    (range_calls k s cores).map CoreArgs.core = cores := by
  induction cores generalizing s with
  | nil => rfl
  | cons c cs ih => simp [range_calls, ih]

theorem range_calls_length (k s : Nat) (cores : List CoreCoord) :
    (range_calls k s cores).length = cores.length := by
  rw [← List.length_map (range_calls k s cores) CoreArgs.core, range_calls_core]

theorem range_calls_size (k s : Nat) (cores : List CoreCoord) (a : CoreArgs)
    (ha : a ∈ range_calls k s cores) :
    a.reader_end = a.reader_start + k ∧ a.writer_start = a.reader_start ∧
      a.writer_end = a.reader_end := by
  induction cores generalizing s with
  | nil => simp [range_calls] at ha
  | cons c cs ih =>
    simp only [range_calls, List.mem_cons] at ha
    rcases ha with h | h
    · subst h; simp
    · exact ih _ h

theorem range_calls_tiling (k s : Nat) (cores : List CoreCoord) :
    Tiling s (s + cores.length * k) (range_calls k s cores) := by
  induction cores generalizing s with
  | nil => simp [range_calls, Tiling]
  | cons c cs ih =>
    have := ih (s + k)
    simp only [range_calls, Tiling, List.length_cons, Nat.succ_mul]
    refine ⟨trivial, by omega, ?_⟩
    have e : s + (cs.length * k + k) = s + k + cs.length * k := by omega
    rw [e]; exact this

theorem tiling_append {s m e : Nat} {l₁ l₂ : List CoreArgs}
    (h₁ : Tiling s m l₁) (h₂ : Tiling m e l₂) : Tiling s e (l₁ ++ l₂) := by
  induction l₁ generalizing s with
  | nil => simp only [Tiling] at h₁; subst h₁; simpa using h₂
  | cons a l ih =>
    obtain ⟨ha, hle, hrest⟩ := h₁
    exact ⟨ha, hle, ih hrest⟩

theorem tiling_le {s e : Nat} {l : List CoreArgs} (h : Tiling s e l) : s ≤ e := by
  induction l generalizing s with
  | nil => simp only [Tiling] at h; omega
  | cons a l ih =>
    obtain ⟨ha, hle, hrest⟩ := h
    have := ih hrest
    omega

theorem tiling_bounds {s e : Nat} {l : List CoreArgs} (h : Tiling s e l) (b : CoreArgs)
    (hb : b ∈ l) : s ≤ b.reader_start ∧ b.reader_end ≤ e := by
  induction l generalizing s with
  | nil => simp at hb
  | cons a l ih =>
    obtain ⟨ha, hle, hrest⟩ := h
    have hrle := tiling_le hrest
    rcases List.mem_cons.mp hb with h1 | h1
    · subst h1; omega
    · have := ih hrest h1
      omega

theorem tiling_cover {s e : Nat} {l : List CoreArgs} (h : Tiling s e l) (t : Nat) :
    (s ≤ t ∧ t < e) ↔ ∃ a ∈ l, a.owns t := by
  induction l generalizing s with
  | nil => simp only [Tiling] at h; subst h; simp
  | cons a l ih =>
    obtain ⟨ha, hle, hrest⟩ := h
    have hrle := tiling_le hrest
    have := ih hrest
    rw [List.exists_mem_cons_iff, ← this]
    simp only [CoreArgs.owns]
    constructor
    · intro ht
      by_cases hlt : t < a.reader_end
      · exact Or.inl ⟨by omega, hlt⟩
      · exact Or.inr ⟨by omega, ht.2⟩
    · intro ht
      rcases ht with ht | ht
      · exact ⟨by omega, by omega⟩
      · exact ⟨by omega, ht.2⟩

theorem tiling_disjoint {s e : Nat} {l : List CoreArgs} (h : Tiling s e l) :
    l.Pairwise (fun a b => ∀ t, ¬ (a.owns t ∧ b.owns t)) := by
  induction l generalizing s with
  | nil => exact List.Pairwise.nil
  | cons a l ih =>
    obtain ⟨ha, hle, hrest⟩ := h
    refine List.Pairwise.cons ?_ (ih hrest)
    intro b hb t
    have := tiling_bounds hrest b hb
    simp only [CoreArgs.owns]
    omega

theorem tiling_first {s e : Nat} {l : List CoreArgs} (h : Tiling s e l) (a : CoreArgs)
    (ha : l[0]? = some a) : a.reader_start = s := by
  cases l with
  | nil => simp at ha
  | cons b l =>
    simp only [List.getElem?_cons_zero, Option.some.injEq] at ha
    subst ha
    exact h.1

theorem tiling_next {s e : Nat} {l : List CoreArgs} (h : Tiling s e l) (j : Nat)
    (a b : CoreArgs) (ha : l[j]? = some a) (hb : l[j + 1]? = some b) :
    b.reader_start = a.reader_end := by
  induction l generalizing s j with
  | nil => simp at ha
  | cons c l ih =>
    obtain ⟨hc, hle, hrest⟩ := h
    cases j with
    | zero =>
      simp only [List.getElem?_cons_zero, Option.some.injEq] at ha
      subst ha
      exact tiling_first hrest b (by simpa using hb)
    | succ j => exact ih hrest j (by simpa using ha) (by simpa using hb)

theorem tiling_last {s e : Nat} {l : List CoreArgs} (h : Tiling s e l) (a : CoreArgs)
    (ha : l.getLast? = some a) : a.reader_end = e := by
  induction l generalizing s with
  | nil => simp at ha
  | cons c l ih =>
    obtain ⟨hc, hle, hrest⟩ := h
    cases l with
    | nil =>
      simp only [List.getLast?_singleton, Option.some.injEq] at ha
      subst ha
      simp only [Tiling] at hrest
      exact hrest
    | cons d l => exact ih hrest (by simpa [List.getLast?_cons_cons] using ha)

/-- Claim C8: for two worker groups, `n1` cores with `k1` tiles each and then
`n2` cores with `k2` tiles each, with `n1 * k1 + n2 * k2 = totalTiles` (a
`uint32_t`), the range loop of `main` visits the cores in enumeration order and
gives core number `j` a range `[start, end)` of exactly its group's tile count;
the first range starts at 0, every range starts where the one before ends and
the last one ends at `totalTiles`; so the ranges are pairwise disjoint and a
tile is in some range exactly when it is below `totalTiles`. -/
theorem assign_ranges_partition (g1 g2 : List (List CoreCoord)) (k1 k2 totalTiles : Nat)
    (htotal : totalTiles < 2 ^ 32)
    (hsum : g1.flatten.length * k1 + g2.flatten.length * k2 = totalTiles) :
    (assign_ranges [(g1, k1), (g2, k2)]).calls.map CoreArgs.core = g1.flatten ++ g2.flatten ∧
    (∀ j a, (assign_ranges [(g1, k1), (g2, k2)]).calls[j]? = some a →
      a.reader_end = a.reader_start + (if j < g1.flatten.length then k1 else k2) ∧
      a.writer_start = a.reader_start ∧ a.writer_end = a.reader_end) ∧
    (∀ a, (assign_ranges [(g1, k1), (g2, k2)]).calls[0]? = some a → a.reader_start = 0) ∧
    (∀ j a b, (assign_ranges [(g1, k1), (g2, k2)]).calls[j]? = some a →
      (assign_ranges [(g1, k1), (g2, k2)]).calls[j + 1]? = some b →
      b.reader_start = a.reader_end) ∧
    (∀ a, (assign_ranges [(g1, k1), (g2, k2)]).calls.getLast? = some a →
      a.reader_end = totalTiles) ∧
    (assign_ranges [(g1, k1), (g2, k2)]).calls.Pairwise
      (fun a b => ∀ t, ¬ (a.owns t ∧ b.owns t)) ∧
    (∀ t, t < totalTiles ↔ ∃ a ∈ (assign_ranges [(g1, k1), (g2, k2)]).calls, a.owns t) := by
  rw [← u32_eq] at htotal
  rw [assign_ranges_eq g1 g2 k1 k2 (by omega)]
  simp only
  have ht1 := range_calls_tiling k1 0 g1.flatten
  have ht2 := range_calls_tiling k2 (g1.flatten.length * k1) g2.flatten
  rw [Nat.zero_add] at ht1
  rw [hsum] at ht2
  have ht := tiling_append ht1 ht2
  refine ⟨?_, ?_, tiling_first ht, tiling_next ht, tiling_last ht, tiling_disjoint ht, ?_⟩
  · rw [List.map_append, range_calls_core, range_calls_core]
  · intro j a ha
    by_cases hj : j < g1.flatten.length
    · rw [List.getElem?_append_left (by rw [range_calls_length]; exact hj)] at ha
      rw [if_pos hj]
      exact range_calls_size k1 _ _ a (List.getElem?_mem ha)
    · rw [List.getElem?_append_right (by rw [range_calls_length]; omega)] at ha
      rw [if_neg hj]
      exact range_calls_size k2 _ _ a (List.getElem?_mem ha)
  · intro t
    rw [← tiling_cover ht t]
    omega

/-- Ten tiles over three cores: one core with 4 tiles, then two cores with 3
tiles each, get `[0, 4)`, `[4, 7)` and `[7, 10)`. -/
theorem assign_ranges_partition_witness :
    ((10 : Nat) < 2 ^ 32 ∧
      [[((0 : Nat), (0 : Nat))]].flatten.length * 4 + [[((1 : Nat), (0 : Nat)), (2, 0)]].flatten.length * 3 = 10) ∧
    (assign_ranges [([[(0, 0)]], 4), ([[(1, 0), (2, 0)]], 3)]).calls =
      [⟨(0, 0), 0, 4, 0, 4⟩, ⟨(1, 0), 4, 7, 4, 7⟩, ⟨(2, 0), 7, 10, 7, 10⟩] ∧
    (∀ t, t < 10 ↔
      ∃ a ∈ (assign_ranges [([[(0, 0)]], 4), ([[(1, 0), (2, 0)]], 3)]).calls, a.owns t) :=
  ⟨⟨by decide, by decide⟩, by decide,
    (assign_ranges_partition [[(0, 0)]] [[(1, 0), (2, 0)]] 4 3 10 (by decide) (by decide)).2.2.2.2.2.2⟩

/-! ## The per-tile loop of `main` -/

/-- For every rank at least 1, a tile grid of that rank without a zero dimension
and every tile, the first iteration of the coordinate loop stores at index
`rank`, past the end of `src_multi_dim`: the per-tile loop yields no
`dst_tile_id`. -/
theorem tile_dst_id_first_store (input_tile_shape input_tile_strides dims_to_flip : List Nat)
    (rank src_tile_id : Nat) (hrank : 1 ≤ rank) (hlen : input_tile_shape.length = rank)
    (hdims : ∀ d ∈ input_tile_shape, 1 ≤ d) :
    tile_dst_id input_tile_shape input_tile_strides dims_to_flip rank src_tile_id =
      .error .outOfBounds := by
  obtain ⟨k, rfl⟩ : ∃ k, rank = k + 1 := ⟨rank - 1, by omega⟩
  have h0 : 0 < input_tile_shape.length := by omega
  have hmem : input_tile_shape[0] ∈ input_tile_shape := List.getElem_mem h0
  have hd := hdims _ hmem
  have hne : input_tile_shape.getD 0 0 ≠ 0 := by
    simp only [List.getD_eq_getElem?_getD, List.getElem?_eq_getElem h0, Option.getD_some]
    omega
  simp only [tile_dst_id, tile_coord_loop, tile_dim, Nat.sub_self, Nat.sub_zero, hlen,
    List.length_replicate, Nat.le_refl, if_true, if_neg hne, Nat.add_one_ne_zero,
    nonpos_iff_eq_zero, if_false]

/-- Claim C9 fails on the code: with the tile grid `(1, 3, 3, 3)` and the tile
strides `(27, 9, 3, 1)` that `main` derives from its shape, the per-tile loop
stores `src_multi_dim[4]` past the end in its first iteration for tile 0, where
the inner loop of `tensor_flip_cpu` gives the destination 8; the same happens
for tile 1 of the grid `(2, 3)` with no flipped axis, where the inner loop of
`tensor_flip_cpu` gives 1. -/
theorem tile_dst_id_faults :
    get_tiled_shape [1, 3, 96, 96] 32 32 = .ok [1, 3, 3, 3] ∧
    get_strides [1, 3, 3, 3] = .ok [27, 9, 3, 1] ∧
    tile_dst_id [1, 3, 3, 3] [27, 9, 3, 1] [2, 3] 4 0 = .error .outOfBounds ∧
    dst_linear_of [1, 3, 3, 3] [27, 9, 3, 1] [2, 3] 0 = .ok 8 ∧
    get_strides [2, 3] = .ok [3, 1] ∧
    tile_dst_id [2, 3] [3, 1] [] 2 1 = .error .outOfBounds ∧
    dst_linear_of [2, 3] [3, 1] [] 1 = .ok 1 := by
  decide

/-- Claim C10 fails on the code: for rank 4 the iterations `i = 0, 1, 2, 3` use
the indices `dim = 4, 3, 2, 1`; the first one is not below the rank, slot 0 is
never used, and the store `src_multi_dim[4]` of the first iteration is past the
end of the vector. -/
theorem tile_dim_not_below_rank :
    tile_dim 4 0 = 4 ∧
    (List.range 4).map (tile_dim 4) = [4, 3, 2, 1] ∧
    0 ∉ (List.range 4).map (tile_dim 4) ∧
    tile_coord_loop [1, 3, 3, 3] [2, 3] 4 4 0 (List.replicate 4 0) (List.replicate 4 0) =
      .error .outOfBounds := by
  decide

end TensorFlip
